import Mathlib

/-!
Verification of the frequency-sketch / heavy-hitter subsystem of the
statistics package (Count-Min sketch plus TopN list, as exercised by
src/statistics/cmsketch_test.go).

The implementation file of the subsystem (cmsketch.go) is not part of the
source slice; only its test file is.  Following the spec, the operations
below are therefore modelled from the specification (spec.md sections 3,
4, 6 and 7), with every wire-format or numeric detail that the spec leaves
open pinned by the assertions of the test file where possible.  Each
definition's doc comment records what it models.
-/

set_option maxHeartbeats 4000000
set_option linter.dupNamespace false

namespace CMS

/-- The largest value of an unsigned 32-bit counter (the fixed counter width). -/
def maxU32 : Nat := 2 ^ 32 - 1

/-- The largest value of the unsigned 64-bit total count. -/
def maxU64 : Nat := 2 ^ 64 - 1

/-- Saturating addition on 32-bit counters (spec section 3: counters
saturate rather than wrap at their maximum representable value). -/
def satAdd32 (a b : Nat) : Nat := min (a + b) maxU32

/-- Saturating addition on the 64-bit total count. -/
def satAdd64 (a b : Nat) : Nat := min (a + b) maxU64

/-- Modelled from the spec: the Frequency Sketch data model (section 3) of
the missing cmsketch.go.  A depth times width matrix of fixed-width
unsigned counters, a scalar total-inserted count, and a scalar
defaultValue used as a floor estimate.  Bytes are modelled as
lists of naturals; counters as naturals kept at most maxU32. -/
structure CMSketch where
  depth : Nat
  width : Nat
  table : List (List Nat)
  count : Nat
  defaultValue : Nat
deriving DecidableEq

/-- Row access used throughout the development (out-of-range gives the empty row). -/
def nthRow : List (List Nat) → Nat → List Nat
  | [], _ => []
  | r :: _, 0 => r
  | _ :: rs, n + 1 => nthRow rs n

/-- Counter access within a row (out-of-range reads zero). -/
def nthCell : List Nat → Nat → Nat
  | [], _ => 0
  | x :: _, 0 => x
  | _ :: xs, n + 1 => nthCell xs n

/-- The counter of sketch c at row i, column j. -/
def cell (c : CMSketch) (i j : Nat) : Nat := nthCell (nthRow c.table i) j

/-- In-row update (out-of-range is a no-op, mirroring a fixed-size array write). -/
def setNth : List Nat → Nat → Nat → List Nat
  | [], _, _ => []
  | _ :: xs, 0, v => v :: xs
  | x :: xs, n + 1, v => x :: setNth xs n v

/-- Add v to the counter at column j of a row, saturating. -/
def bumpBy (row : List Nat) (j v : Nat) : List Nat :=
  setNth row j (satAdd32 (nthCell row j) v)

/-- Modelled from the spec: for each of the d rows an independent hash of the
key is computed, seeded per row (section 4.1).  The hash family itself lives
in the missing implementation (a 128-bit murmur3 digest there), so it is a
parameter hashf : row index -> key -> hash value; the column is the hash
reduced modulo the width.  updateRows walks the rows carrying the row index
and adds v to the hashed column of every row, saturating. -/
def updateRows (hashf : Nat → List Nat → Nat) (key : List Nat) (w v : Nat) :
    Nat → List (List Nat) → List (List Nat)
  | _, [] => []
  | i, row :: rest =>
      bumpBy row (hashf i key % w) v :: updateRows hashf key w v (i + 1) rest

/-- Modelled from the spec: insert(keyBytes) (section 4.1).  Each of the d
rows has its hashed counter incremented with saturation at the counter
maximum, and the total count is incremented with saturation.  No failure
path. -/
def InsertBytes (hashf : Nat → List Nat → Nat) (c : CMSketch) (key : List Nat) : CMSketch :=
  { c with
    table := updateRows hashf key c.width 1 0 c.table
    count := satAdd64 c.count 1 }

/-- Modelled from the spec: scaled insertion used by the builder (section
4.3 step 4, sample counts promoted to population scale before insertion). -/
def insertBytesByCount (hashf : Nat → List Nat → Nat) (c : CMSketch) (key : List Nat)
    (v : Nat) : CMSketch :=
  { c with
    table := updateRows hashf key c.width v 0 c.table
    count := satAdd64 c.count v }

/-- Error condition of the sketch merge operations (spec section 7:
dimension mismatch). -/
inductive MergeError where
  | dimensionMismatch
deriving DecidableEq

/-- Element-wise saturating addition of two rows. -/
def satAddRow (a b : List Nat) : List Nat := List.zipWith satAdd32 a b

/-- Modelled from the spec: mergePairwise (section 4.1).  Requires identical
depth and width; element-wise saturating addition of counters, saturating
addition of total counts; fails with a dimension-mismatch condition
otherwise and never truncates or pads. -/
def MergeCMSketch (c o : CMSketch) : Except MergeError CMSketch :=
  if c.depth = o.depth ∧ c.width = o.width then
    .ok { c with
          table := List.zipWith satAddRow c.table o.table
          count := satAdd64 c.count o.count }
  else .error .dimensionMismatch

/-- Modelled from the spec: mergeIncremental (section 4.1).  The format
version selects between a legacy reconciliation rule and a corrected one;
the spec leaves both per-cell rules and the defaultValue recomputation
unpinned (section 9 flags them as an open question), so they are parameters
cellRule and dvRule indexed by the version.  Both rules preserve depth and
width, sum the total counts (saturating) and fail with the same
dimension-mismatch condition as the pairwise merge. -/
def MergeCMSketch4IncrementalAnalyze (cellRule dvRule : Nat → Nat → Nat → Nat)
    (version : Nat) (c delta : CMSketch) : Except MergeError CMSketch :=
  if c.depth = delta.depth ∧ c.width = delta.width then
    .ok { c with
          table := List.zipWith (List.zipWith (cellRule version)) c.table delta.table
          count := satAdd64 c.count delta.count
          defaultValue := dvRule version c.defaultValue delta.defaultValue }
  else .error .dimensionMismatch

/-- Modelled from the spec: structuralEquals (section 4.1), deep equality of
all counters, total count and defaultValue, used for round-trip
verification. -/
def Equal (a b : CMSketch) : Bool :=
  a.table == b.table && a.count == b.count && a.defaultValue == b.defaultValue

/-- The ok component of an Except result, or none on error. -/
def okPart {ε α : Type} : Except ε α → Option α
  | .ok a => some a
  | .error _ => none

/-- Whether a pairwise merge result is the dimension-mismatch error. -/
def isDimErr {α : Type} : Except MergeError α → Bool
  | .error .dimensionMismatch => true
  | .ok _ => false

/-- Modelled from the spec: a Heavy-Hitter entry (section 3): an encoded key
(opaque byte sequence) paired with an exact observed count. -/
structure TopNMeta where
  Encoded : List Nat
  Count : Nat
deriving DecidableEq

/-- Modelled from the spec: the Heavy-Hitter List (section 3), a key-unique
collection of entries; capacity is enforced at finalization, not stored. -/
structure TopN where
  TopN : List TopNMeta
deriving DecidableEq

/-- Modelled from the spec: create(capacity) (section 4.2): an empty list;
the capacity bound is enforced only at finalization, so it is not retained. -/
def NewTopN (_n : Nat) : TopN := ⟨[]⟩

/-- Append helper: insert a new entry or increase an existing entry with the
same key (spec section 4.2). -/
def bumpEntry : List TopNMeta → List Nat → Nat → List TopNMeta
  | [], k, v => [⟨k, v⟩]
  | e :: rest, k, v =>
      if e.Encoded = k then ⟨e.Encoded, e.Count + v⟩ :: rest
      else e :: bumpEntry rest k v

/-- Modelled from the spec: append(keyBytes, count) (section 4.2). -/
def AppendTopN (t : TopN) (k : List Nat) (v : Nat) : TopN := ⟨bumpEntry t.TopN k v⟩

/-- Modelled from the spec: totalCount() (section 4.2), sum of the counts of
all retained entries. -/
def TotalCount (t : TopN) : Nat := (t.TopN.map TopNMeta.Count).sum

/-- Exact lookup of a key in an optional heavy-hitter list (section 4.4:
a missing list means no heavy hitters, use the sketch for everything). -/
def QueryTopN : Option TopN → List Nat → Option Nat
  | none, _ => none
  | some t, k => (t.TopN.find? (fun e => e.Encoded == k)).map TopNMeta.Count

/-- Boolean ascending lexicographic order on encoded keys (byte sequences). -/
def lexLeB : List Nat → List Nat → Bool
  | [], _ => true
  | _ :: _, [] => false
  | a :: as, b :: bs => if a < b then true else if b < a then false else lexLeB as bs

/-- The finalized ordering relation of heavy-hitter lists (spec section 4.2):
descending by count, with ties broken by ascending lexicographic key order. -/
def metaLE (a b : TopNMeta) : Prop :=
  b.Count < a.Count ∨ (a.Count = b.Count ∧ lexLeB a.Encoded b.Encoded = true)

instance : DecidableRel metaLE := fun a b => by
  unfold metaLE; exact inferInstance

instance : IsTotal TopNMeta metaLE :=
  ⟨by
    intro a b
    have hlex : ∀ (u : List Nat) (v : List Nat),
        lexLeB u v = true ∨ lexLeB v u = true := by
      intro u
      induction u with
      | nil => intro v; left; rfl
      | cons x xs ih =>
        intro v
        cases v with
        | nil => right; rfl
        | cons y ys =>
          rcases Nat.lt_trichotomy x y with h | h | h
          · left; simp [lexLeB, h]
          · subst h
            rcases ih ys with h2 | h2
            · left; simp [lexLeB, h2]
            · right; simp [lexLeB, h2]
          · right; simp [lexLeB, h]
    rcases Nat.lt_trichotomy a.Count b.Count with h | h | h
    · right; left; exact h
    · rcases hlex a.Encoded b.Encoded with h2 | h2
      · left; right; exact ⟨h, h2⟩
      · right; right; exact ⟨h.symm, h2⟩
    · left; left; exact h⟩

instance : IsTrans TopNMeta metaLE :=
  ⟨by
    intro a b c hab hbc
    have hlex : ∀ (u v w : List Nat), lexLeB u v = true → lexLeB v w = true →
        lexLeB u w = true := by
      intro u
      induction u with
      | nil => intro v w _ _; rfl
      | cons x xs ih =>
        intro v w huv hvw
        cases v with
        | nil => simp [lexLeB] at huv
        | cons y ys =>
          cases w with
          | nil => simp [lexLeB] at hvw
          | cons z zs =>
            simp only [lexLeB] at huv hvw ⊢
            split_ifs at huv hvw ⊢ <;>
              first
                | rfl
                | omega
                | exact ih ys zs huv hvw
    rcases hab with h1 | ⟨h1, h1l⟩
    · rcases hbc with h2 | ⟨h2, _⟩
      · left; omega
      · left; omega
    · rcases hbc with h2 | ⟨h2, h2l⟩
      · left; omega
      · right; exact ⟨by omega, hlex _ _ _ h1l h2l⟩⟩

/-- Finalization sort of heavy-hitter entries (spec section 4.2). -/
def sortMetas (l : List TopNMeta) : List TopNMeta := List.insertionSort metaLE l

/-- Tally helper: add one occurrence of key k to an association list of
exact frequencies (spec section 4.3 step 1). -/
def addKeyCount (k : List Nat) : List (List Nat × Nat) → List (List Nat × Nat)
  | [] => [(k, 1)]
  | p :: rest => if p.1 = k then (p.1, p.2 + 1) :: rest else p :: addKeyCount k rest

/-- Modelled from the spec: tally each distinct key's exact frequency within
the sample (spec section 4.3 step 1). -/
def tally : List (List Nat) → List (List Nat × Nat)
  | [] => []
  | k :: rest => addKeyCount k (tally rest)

/-- Modelled from the spec: the Sketch+TopN Builder (section 4.3).  A key is
promoted to heavy-hitter status only if its sample frequency is a
statistically significant outlier relative to the sample mean frequency;
the spec leaves the exact threshold open (section 9), so the documented
heuristic chosen here is: frequency at least twice the mean sample
frequency, in integer-exact form 2 * sampleSize <= frequency * sampleNDV.
Up to n qualifying keys (scaled by total / sampleSize) become the
heavy-hitter list, in finalized order; all keys not promoted are inserted
into the sketch with scaled counts.  defaultValue is the average scaled
count of the non-promoted portion of the sample, which approximates the
true average repeat count for data with no real heavy hitters.  Returns the
sketch, the list (none when no key qualifies) and the scale factor. -/
def NewCMSketchAndTopN (hashf : Nat → List Nat → Nat) (d w : Nat)
    (sample : List (List Nat)) (n total : Nat) : CMSketch × Option TopN × Nat :=
  let cnt := tally sample
  let size := sample.length
  let ndv := cnt.length
  let scale := total / max 1 size
  let hot := cnt.filter (fun p => decide (2 * size ≤ p.2 * ndv))
  let sortedHot := sortMetas (hot.map (fun p => ⟨p.1, p.2 * scale⟩))
  let promoted := sortedHot.take n
  let tn : Option TopN := if hot.isEmpty then none else some ⟨promoted⟩
  let promKeys := promoted.map TopNMeta.Encoded
  let rest := cnt.filter (fun p => ! promKeys.contains p.1)
  let dv := ((rest.map (fun p => p.2 * scale)).sum) / max 1 (rest.length * scale)
  let base : CMSketch := ⟨d, w, List.replicate d (List.replicate w 0), 0, dv⟩
  let sk := rest.foldl (fun c p => insertBytesByCount hashf c p.1 (p.2 * scale)) base
  (sk, tn, scale)

/-- Entries of an optional heavy-hitter list (none gives the empty list). -/
def topNEntries : Option TopN → List TopNMeta
  | none => []
  | some t => t.TopN

/-- The counters read for a key, one per row (spec section 4.1 estimate):
row i contributes its counter at the hashed column of row i. -/
def rowCells (hashf : Nat → List Nat → Nat) (key : List Nat) (w : Nat) :
    Nat → List (List Nat) → List Nat
  | _, [] => []
  | i, row :: rest => nthCell row (hashf i key % w) :: rowCells hashf key w (i + 1) rest

/-- Minimum of a list of naturals (0 for the empty list; a well-formed
sketch has depth at least 1, so the list is never empty in practice). -/
def minList : List Nat → Nat
  | [] => 0
  | [x] => x
  | x :: y :: rest => min x (minList (y :: rest))

/-- Modelled from the spec: the sketch bias-corrected point estimate
(section 4.1): the minimum counter across the d rows minus a
collision-correction term derived from the total count and the width (the
expected collision contribution per row, count / width), clamped so the
correction never drives the result below zero (truncated subtraction). -/
def sketchEstimate (hashf : Nat → List Nat → Nat) (c : CMSketch) (key : List Nat) : Nat :=
  minList (rowCells hashf key c.width 0 c.table) - c.count / c.width

/-- Modelled from the spec: the Query Estimator (section 4.4).  If the
heavy-hitter list is present and contains the key, its exact count is
returned; otherwise the sketch bias-corrected estimate, with defaultValue
substituted when that estimate rounds to zero. -/
def queryValue (hashf : Nat → List Nat → Nat) (c : CMSketch) (t : Option TopN)
    (key : List Nat) : Nat :=
  match QueryTopN t key with
  | some v => v
  | none =>
    if sketchEstimate hashf c key = 0 then c.defaultValue else sketchEstimate hashf c key

/-- Base-128 integer encoding, least-significant group first; every group
except the last carries a continuation marker (value plus 128).  This is
the wire-level integer encoding of the persisted statistics blob: the spec
(section 6) fixes the field layout of the codec, and the repository's test
pins the exact integer encoding through the asserted blob length 61457 for
a saturated depth-5 width-2048 sketch (src/statistics/cmsketch_test.go
lines 162 and 300), which singles out this variable-length base-128 format
with a one-byte tag per field. -/
def encodeVarintF : Nat → Nat → List Nat
  | 0, n => [n]
  | fuel + 1, n => if n < 128 then [n] else (n % 128 + 128) :: encodeVarintF fuel (n / 128)

/-- Base-128 encoding of n; n itself is always sufficient fuel, since the
value shrinks by a factor of 128 per emitted group. -/
def encodeVarint (n : Nat) : List Nat := encodeVarintF n n

/-- Inverse of encodeVarint on a byte stream: reads one base-128 integer
and returns it with the remaining bytes. -/
def decodeVarint : List Nat → Option (Nat × List Nat)
  | [] => none
  | b :: rest =>
    if b < 128 then some (b, rest)
    else
      match decodeVarint rest with
      | none => none
      | some (n, r) => some (n * 128 + b % 128, r)

/-- One counter on the wire: tag byte 8 followed by the counter value. -/
def encodeCounter (v : Nat) : List Nat := 8 :: encodeVarint v

/-- A row's counters on the wire, in column order. -/
def encodeRowPayload (row : List Nat) : List Nat := (row.map encodeCounter).flatten

/-- A full row field: tag byte 10, the payload length, then the payload. -/
def encodeRowField (row : List Nat) : List Nat :=
  10 :: (encodeVarint (encodeRowPayload row).length ++ encodeRowPayload row)

/-- Modelled from the spec: the binary codec's encoder (section 6) of the
missing cmsketch.go.  The blob holds the d rows of counters in a defined
byte order followed by defaultValue (tag byte 24); heavy-hitter rows are
NOT embedded in the blob.  The total count is not a separate field — the
repository's test pins the blob length at 61457 for a saturated 5 x 2048
sketch, which leaves no room for one — so decoding recomputes the count
from a row's counters (the two quantities agree on every sketch produced by
insertion, which adds equally to each row and to the count). -/
def EncodeCMSketchWithoutTopN (c : CMSketch) : List Nat :=
  (c.table.map encodeRowField).flatten ++ 24 :: encodeVarint c.defaultValue

/-- Counters parser worker: a sequence of tagged counters read to
exhaustion, with a fuel argument bounding the number of counters (any fuel
at least the byte length of the input is sufficient, since every counter
occupies at least one byte). -/
def decodeCountersF : Nat → List Nat → Option (List Nat)
  | _, [] => some []
  | 0, _ => none
  | fuel + 1, 8 :: rest =>
    match decodeVarint rest with
    | none => none
    | some (v, r) =>
      match decodeCountersF fuel r with
      | none => none
      | some vs => some (v :: vs)
  | _ + 1, _ => none

/-- Counters parser: a sequence of tagged counters read to exhaustion. -/
def decodeCounters (l : List Nat) : Option (List Nat) := decodeCountersF l.length l

/-- Field parser worker of the persisted blob: row fields (tag 10) and the
defaultValue field (tag 24), in any order, later defaultValue winning,
mirroring a tag-dispatching wire-format reader; the fuel argument bounds
the number of fields. -/
def decodeFieldsF : Nat → List Nat → Option (List (List Nat) × Option Nat)
  | _, [] => some ([], none)
  | 0, _ => none
  | fuel + 1, 10 :: rest =>
    match decodeVarint rest with
    | none => none
    | some (len, r1) =>
      match decodeCounters (r1.take len) with
      | none => none
      | some row =>
        match decodeFieldsF fuel (r1.drop len) with
        | none => none
        | some (rows, dv) => some (row :: rows, dv)
  | fuel + 1, 24 :: rest =>
    match decodeVarint rest with
    | none => none
    | some (dv, r1) =>
      match decodeFieldsF fuel r1 with
      | none => none
      | some (rows, dv1) => some (rows, some (dv1.getD dv))
  | _ + 1, _ => none

/-- Field parser of the persisted blob. -/
def decodeFields (l : List Nat) : Option (List (List Nat) × Option Nat) :=
  decodeFieldsF l.length l

/-- Sketch reconstruction from decoded rows: dimensions are read back from
the row structure and the total count is recomputed from the first row's
counters (see EncodeCMSketchWithoutTopN: the blob has no count field). -/
def fromRows (rows : List (List Nat)) (dv : Nat) : CMSketch :=
  { depth := rows.length
    width := (rows.headD []).length
    table := rows
    count := (rows.headD []).sum
    defaultValue := dv }

/-- Heavy-hitter list reconstruction from the separately supplied rows
(spec section 6: heavy-hitter rows are not embedded in the blob). -/
def topNFromRows (rs : List TopNMeta) : Option TopN :=
  match rs with
  | [] => none
  | _ :: _ => some ⟨rs⟩

/-- Modelled from the spec: the binary codec's decoder (sections 6 and 7).
An empty byte sequence yields empty/absent structures with no error (a
deliberate leniency for older or partially written statistics), and
malformed input is likewise treated as no data rather than a fatal
condition, so the error slot of the result is never used. -/
def DecodeCMSketchAndTopN (bytes : List Nat) (rows : List TopNMeta) :
    Except Unit (Option CMSketch × Option TopN) :=
  if bytes.isEmpty then .ok (none, none)
  else
    match decodeFields bytes with
    | none => .ok (none, topNFromRows rows)
    | some (rs, dv) =>
      if rs.isEmpty then .ok (none, topNFromRows rows)
      else .ok (some (fromRows rs (dv.getD 0)), topNFromRows rows)

/-- The sketch component of a decode result. -/
def sketchPart : Except Unit (Option CMSketch × Option TopN) → Option CMSketch
  | .ok (s, _) => s
  | .error _ => none

/-- Round-trip check used by the round-trip theorems: encode a sketch,
decode the bytes alongside the given heavy-hitter rows, and compare the
decoded sketch with the original using structural equality. -/
def decodedEqual (c : CMSketch) (rows : List TopNMeta) : Bool :=
  match DecodeCMSketchAndTopN (EncodeCMSketchWithoutTopN c) rows with
  | .ok (some s, _) => Equal s c
  | _ => false

/-- Error condition of the Global TopN Reconciler (spec section 7): the
distinct cancelled condition reported when the shared token is observed
set mid-merge. -/
inductive ReconcileError where
  | cancelled
deriving DecidableEq

/-- A per-partition histogram, reduced to the only capability the spec
grants this subsystem (section 3): an approximate-count query by key. -/
abbrev Hist := List Nat → Nat

/-- Cooperative cancellation polling (spec section 4.6 step 5): the shared
token is polled once per partition processed; the poll index is threaded so
that the token is modelled as the sequence of values it shows to successive
polls.  Returns false as soon as a poll observes the token set. -/
def pollAll (killed : Nat → Bool) : Nat → List TopN → Bool
  | _, [] => true
  | i, _ :: rest => if killed i then false else pollAll killed (i + 1) rest

/-- Key-set union helper: append a key if it has not been seen yet,
preserving first-occurrence order. -/
def addKeyIfNew (acc : List (List Nat)) (k : List Nat) : List (List Nat) :=
  if acc.contains k then acc else acc ++ [k]

/-- Union of all keys appearing in any partition's heavy-hitter list (spec
section 4.6 step 1). -/
def collectKeys (ts : List TopN) : List (List Nat) :=
  ts.foldl (fun acc t => t.TopN.foldl (fun a e => addKeyIfNew a e.Encoded) acc) []

/-- Modelled from the spec: a key's contribution from one partition (spec
section 4.6 step 2).  A key present in the partition's own list contributes
its exact count; a missing key contributes the partition's histogram
estimate when histograms are supplied, and zero otherwise. -/
def partContribution (hists : Option (List Hist)) (i : Nat) (t : TopN) (k : List Nat) : Nat :=
  match t.TopN.find? (fun e => e.Encoded == k) with
  | some e => e.Count
  | none =>
    match hists with
    | some hs => (hs.getD i (fun _ => 0)) k
    | none => 0

/-- A key's candidate global count: the sum of its contributions across all
partitions (spec section 4.6 step 3). -/
def keyTotal (hists : Option (List Hist)) (k : List Nat) : Nat → List TopN → Nat
  | _, [] => 0
  | i, t :: rest => partContribution hists i t k + keyTotal hists k (i + 1) rest

/-- Modelled from the spec: the Global TopN Reconciler (section 4.6) of the
missing cmsketch.go.  The timezone and index-flag parameters only shape the
external key decoding consumed by histogram lookups, which the abstract
histogram query subsumes, so they are carried but otherwise inert, as is
the format version.  The reconciler unions the keys of all partition lists,
sums every key's per-partition contributions, sorts the candidates in the
finalized heavy-hitter order and keeps the top n; the remainder is the
left-over list handed back to the caller, and the histograms are passed
through as the auxiliary output.  The shared cancellation token is polled
once per partition; an observed set token aborts the call with the
cancelled condition and no partial result. -/
def MergePartTopN2GlobalTopN (_loc : Unit) (_version : Nat) (topNs : List TopN) (n : Nat)
    (hists : Option (List Hist)) (_isIdx : Bool) (killed : Nat → Bool) :
    Except ReconcileError (TopN × List TopNMeta × Option (List Hist)) :=
  if pollAll killed 0 topNs then
    let sorted := sortMetas ((collectKeys topNs).map fun k => ⟨k, keyTotal hists k 0 topNs⟩)
    .ok (⟨sorted.take n⟩, sorted.drop n, hists)
  else .error .cancelled

/-- Observable summary of a reconciliation result: size of the global list,
its combined count, and the number of left-over entries (the three
quantities the merge scenarios of spec section 8 pin down). -/
def mergeStats (r : Except ReconcileError (TopN × List TopNMeta × Option (List Hist))) :
    Option (Nat × Nat × Nat) :=
  match r with
  | .ok (g, left, _) => some (g.TopN.length, TotalCount g, left.length)
  | .error _ => none

/-- First key of the reconciliation scenarios of spec section 8 (the test
keys are opaque encoded byte sequences; these three stand-ins preserve
their distinctness and lexicographic order). -/
def key1 : List Nat := [1]

/-- Second key of the reconciliation scenarios. -/
def key2 : List Nat := [2]

/-- Third key of the reconciliation scenarios. -/
def key3 : List Nat := [3]

/-- A partition list holding the three keys with counts 2, 2 and 3, built
with AppendTopN the way the test builds it. -/
def partAll : TopN :=
  AppendTopN (AppendTopN (AppendTopN (NewTopN 3) key1 2) key2 2) key3 3

/-- A partition list missing the third key (used by the odd partitions of
the with-histograms scenario). -/
def partNoK3 : TopN := AppendTopN (AppendTopN (NewTopN 3) key1 2) key2 2

/-- Ten identical partition lists (the without-histograms scenario). -/
def topNsA : List TopN := List.replicate 10 partAll

/-- Ten partition lists of which only the even-indexed ones contain the
third key (the with-histograms scenario). -/
def topNsB : List TopN :=
  (List.range 10).map fun i => if i % 2 = 0 then partAll else partNoK3

/-- The with-histograms scenario's per-partition histogram, reduced to its
approximate-count query: the test's histogram (10 distinct values, 40
non-null rows) answers 40 / 10 = 4 for the third key, the only key the
reconciler ever asks it about. -/
def histB : Hist := fun k => if k == key3 then 4 else 0

/-- One histogram per partition, all identical, as in the test. -/
def histsB : Option (List Hist) := some ((List.range 10).map fun _ => histB)

/-- The saturated sketch of the coding tests: depth 5, width 2048, every
counter at the 32-bit maximum and total count 2048 times that maximum. -/
def s10 : CMSketch :=
  ⟨5, 2048, List.replicate 5 (List.replicate 2048 maxU32), 2048 * maxU32, 0⟩

/-- Round-trip witness sketch: its total count 3 equals the sum of each of
its rows. -/
def wRound : CMSketch := ⟨2, 2, [[1, 2], [3, 0]], 3, 9⟩

/-- Round-trip counterexample sketch: its stored total count 7 disagrees
with its single row of counters (sum 5), so the count recomputed while
decoding differs from the stored one. -/
def cexSketch : CMSketch := ⟨1, 1, [[5]], 7, 0⟩

/-- Estimator witness sketch. -/
def wQSketch : CMSketch := ⟨1, 2, [[5, 9]], 10, 3⟩

/-- Estimator witness heavy-hitter list. -/
def wQTopN : TopN := ⟨[⟨[1, 2], 7⟩]⟩

/-- A constant hash family used by concrete witnesses. -/
def wHash : Nat → List Nat → Nat := fun _ _ => 0

/-- Saturation witness sketch whose first counter is already at the 32-bit
maximum. -/
def wSatC : CMSketch := ⟨1, 2, [[maxU32, 3]], 5, 0⟩

/-- Second saturation witness sketch, with matching dimensions. -/
def wSatO : CMSketch := ⟨1, 2, [[2, 7]], 4, 1⟩

/-- The pairwise merge of the two saturation witness sketches: the first
counter saturates at the 32-bit maximum, the second adds exactly. -/
def wSatM : CMSketch := ⟨1, 2, [[maxU32, 10]], 9, 0⟩

theorem addKeyCount_of_not_mem (k : List Nat) (l : List (List Nat × Nat))
    (h : ∀ p ∈ l, p.1 ≠ k) : addKeyCount k l = l ++ [(k, 1)] := by
  induction l with
  | nil => rfl
  | cons p rest ih =>
    have hp : p.1 ≠ k := h p (by simp)
    simp only [addKeyCount, if_neg hp, List.cons_append]
    rw [ih (fun q hq => h q (by simp [hq]))]

theorem mem_addKeyCount (k : List Nat) (l : List (List Nat × Nat)) (p : List Nat × Nat)
    (hp : p ∈ addKeyCount k l) : p ∈ l ∨ p.1 = k := by
  induction l with
  | nil =>
    simp only [addKeyCount, List.mem_singleton] at hp
    right; rw [hp]
  | cons q rest ih =>
    simp only [addKeyCount] at hp
    by_cases hq : q.1 = k
    · rw [if_pos hq] at hp
      rcases List.mem_cons.mp hp with h1 | h1
      · right; rw [h1]; exact hq
      · left; exact List.mem_cons_of_mem _ h1
    · rw [if_neg hq] at hp
      rcases List.mem_cons.mp hp with h1 | h1
      · left; rw [h1]; exact List.mem_cons_self _ _
      · rcases ih h1 with h2 | h2
        · left; exact List.mem_cons_of_mem _ h2
        · right; exact h2

theorem tally_key_mem (s : List (List Nat)) : ∀ p ∈ tally s, p.1 ∈ s := by
  induction s with
  | nil => intro p hp; simp [tally] at hp
  | cons k rest ih =>
    intro p hp
    simp only [tally] at hp
    rcases mem_addKeyCount k (tally rest) p hp with h | h
    · exact List.mem_cons_of_mem _ (ih p h)
    · rw [h]; exact List.mem_cons_self _ _

theorem tally_nodup (s : List (List Nat)) (h : s.Nodup) :
    tally s = s.reverse.map (fun k => (k, 1)) := by
  induction s with
  | nil => rfl
  | cons k rest ih =>
    have hk : k ∉ rest := (List.nodup_cons.mp h).1
    have hrest : rest.Nodup := (List.nodup_cons.mp h).2
    simp only [tally, ih hrest]
    rw [addKeyCount_of_not_mem]
    · simp
    · intro p hp
      rcases List.mem_map.mp hp with ⟨a, ha, rfl⟩
      simp only
      intro hak
      exact hk (by rw [← hak]; exact (List.mem_reverse.mp ha))

theorem foldl_insertBytesByCount_defaultValue (hashf : Nat → List Nat → Nat) (scale : Nat) :
    ∀ (l : List (List Nat × Nat)) (c : CMSketch),
      (l.foldl (fun c p => insertBytesByCount hashf c p.1 (p.2 * scale)) c).defaultValue =
        c.defaultValue := by
  intro l
  induction l with
  | nil => intro c; rfl
  | cons p rest ih =>
    intro c
    simp only [List.foldl_cons]
    rw [ih]
    rfl

/-- Uniform unique data produces no heavy hitters and defaultValue 1: for a
sample of pairwise-distinct keys (each sample frequency exactly 1, hence no
statistically significant outlier) whose size is at most the population
size, the builder returns an absent heavy-hitter list and defaultValue 1.
This is the machine-checkable part of the unique-data property of spec
section 8. -/
theorem NewCMSketchAndTopN_unique_sample (hashf : Nat → List Nat → Nat) (d w : Nat)
    (sample : List (List Nat)) (n total : Nat)
    (hnd : sample.Nodup) (hne : sample ≠ []) (hts : sample.length ≤ total) :
    (NewCMSketchAndTopN hashf d w sample n total).2.1 = none ∧
      (NewCMSketchAndTopN hashf d w sample n total).1.defaultValue = 1 := by
  have hsize : 0 < sample.length := List.length_pos.mpr hne
  have htal : tally sample = sample.reverse.map (fun k => (k, 1)) := tally_nodup sample hnd
  have hndv : (tally sample).length = sample.length := by
    rw [htal]; simp
  have hhot : (tally sample).filter
      (fun p => decide (2 * sample.length ≤ p.2 * (tally sample).length)) = [] := by
    rw [List.filter_eq_nil_iff]
    intro p hp
    have hp2 : p.2 = 1 := by
      rw [htal] at hp
      rcases List.mem_map.mp hp with ⟨a, _, rfl⟩
      rfl
    rw [hndv, hp2]
    simp only [decide_eq_true_eq, one_mul]
    omega
  have hscale : 1 ≤ total / max 1 sample.length := by
    rw [Nat.max_eq_right hsize]
    exact (Nat.one_le_div_iff hsize).mpr hts
  constructor
  · simp only [NewCMSketchAndTopN, hhot]
    rfl
  · simp only [NewCMSketchAndTopN, hhot]
    simp only [List.isEmpty_nil, if_pos, List.map_nil, sortMetas]
    have hfilter : (tally sample).filter
        (fun p => ! (List.map TopNMeta.Encoded (List.take n (List.insertionSort metaLE []))).contains p.1)
        = tally sample := by
      apply List.filter_eq_self.mpr
      intro a _
      simp [List.insertionSort]
    rw [hfilter]
    set scale := total / max 1 sample.length with hscaledef
    rw [foldl_insertBytesByCount_defaultValue]
    show ((tally sample).map (fun p => p.2 * scale)).sum /
        max 1 ((tally sample).length * scale) = 1
    have hmap : (tally sample).map (fun p => p.2 * scale) =
        List.replicate sample.length scale := by
      rw [htal, List.map_map]
      have : ((fun p => p.2 * scale) ∘ fun k => ((k, 1) : List Nat × Nat)) =
          fun _ => scale := by
        funext k; simp
      rw [this]
      simp [List.map_const']
    rw [hmap, hndv]
    have hsum : (List.replicate sample.length scale).sum = sample.length * scale := by
      simp [List.sum_replicate, smul_eq_mul]
    rw [hsum]
    have hpos : 0 < sample.length * scale := Nat.mul_pos hsize hscale
    rw [Nat.max_eq_right hpos]
    exact Nat.div_self hpos

/-- Sanity checks of the builder and estimator on tiny concrete inputs. -/
example : (NewCMSketchAndTopN (fun _ _ => 0) 1 4 [[1], [2], [3]] 2 30).2.1 = none := by decide

theorem decodeVarint_encodeVarintF :
    ∀ (fuel n : Nat), n ≤ fuel ∨ n < 128 → ∀ rest,
      decodeVarint (encodeVarintF fuel n ++ rest) = some (n, rest) := by
  intro fuel
  induction fuel with
  | zero =>
    intro n hn rest
    have h : n < 128 := by rcases hn with h | h <;> omega
    simp [encodeVarintF, decodeVarint, h]
  | succ f ih =>
    intro n hn rest
    by_cases h : n < 128
    · simp [encodeVarintF, decodeVarint, h]
    · have hrec : n / 128 ≤ f := by
        have hlt := Nat.div_lt_self (show 0 < n by omega) (show 1 < 128 by omega)
        rcases hn with h2 | h2 <;> omega
      simp only [encodeVarintF, if_neg h, List.cons_append]
      have h128 : ¬ (n % 128 + 128 < 128) := by omega
      simp only [decodeVarint, if_neg h128]
      simp only [ih (n / 128) (Or.inl hrec) rest]
      have heq : n / 128 * 128 + (n % 128 + 128) % 128 = n := by omega
      rw [heq]

theorem decodeVarint_encodeVarint (n : Nat) :
    ∀ rest, decodeVarint (encodeVarint n ++ rest) = some (n, rest) :=
  fun rest => decodeVarint_encodeVarintF n n (Or.inl (le_refl n)) rest

theorem encodeVarint_length_pos (n : Nat) : 0 < (encodeVarint n).length := by
  unfold encodeVarint
  cases n with
  | zero => simp [encodeVarintF]
  | succ m =>
    simp only [encodeVarintF]
    split <;> simp

theorem decodeCountersF_payload (row : List Nat) :
    ∀ fuel, (encodeRowPayload row).length ≤ fuel →
      decodeCountersF fuel (encodeRowPayload row) = some row := by
  induction row with
  | nil =>
    intro fuel _
    cases fuel <;> rfl
  | cons v vs ih =>
    intro fuel hf
    have hp : encodeRowPayload (v :: vs) = 8 :: (encodeVarint v ++ encodeRowPayload vs) := by
      simp [encodeRowPayload, encodeCounter]
    rw [hp] at hf ⊢
    cases fuel with
    | zero => simp at hf
    | succ f =>
      have hvp := encodeVarint_length_pos v
      have hrest : (encodeRowPayload vs).length ≤ f := by
        simp only [List.length_cons, List.length_append] at hf
        omega
      simp only [decodeCountersF]
      simp only [decodeVarint_encodeVarint v (encodeRowPayload vs)]
      simp only [ih f hrest]

theorem decodeCounters_payload (row : List Nat) :
    decodeCounters (encodeRowPayload row) = some row :=
  decodeCountersF_payload row _ (le_refl _)

theorem decodeFieldsF_nil (fuel : Nat) : decodeFieldsF fuel [] = some ([], none) := by
  cases fuel <;> rfl

theorem decodeFieldsF_encode (rows : List (List Nat)) (dv : Nat) :
    ∀ fuel, ((rows.map encodeRowField).flatten ++ 24 :: encodeVarint dv).length ≤ fuel →
      decodeFieldsF fuel ((rows.map encodeRowField).flatten ++ 24 :: encodeVarint dv) =
        some (rows, some dv) := by
  induction rows with
  | nil =>
    intro fuel hf
    simp only [List.map_nil, List.flatten_nil, List.nil_append] at hf ⊢
    cases fuel with
    | zero => simp at hf
    | succ f =>
      simp only [decodeFieldsF]
      have hv := decodeVarint_encodeVarint dv []
      rw [List.append_nil] at hv
      simp only [hv, decodeFieldsF_nil]
      rfl
  | cons r rs ih =>
    intro fuel hf
    have hshape : (((r :: rs).map encodeRowField).flatten ++ 24 :: encodeVarint dv) =
        10 :: (encodeVarint (encodeRowPayload r).length ++
          (encodeRowPayload r ++ ((rs.map encodeRowField).flatten ++ 24 :: encodeVarint dv))) := by
      simp [encodeRowField, List.append_assoc]
    rw [hshape] at hf ⊢
    cases fuel with
    | zero => simp at hf
    | succ f =>
      have hrest : ((rs.map encodeRowField).flatten ++ 24 :: encodeVarint dv).length ≤ f := by
        simp only [List.length_cons, List.length_append] at hf ⊢
        omega
      simp only [decodeFieldsF]
      simp only [decodeVarint_encodeVarint (encodeRowPayload r).length
          (encodeRowPayload r ++ ((rs.map encodeRowField).flatten ++ 24 :: encodeVarint dv))]
      simp only [List.take_left, List.drop_left]
      simp only [decodeCounters_payload r]
      simp only [ih f hrest]

theorem decodeFields_encode (rows : List (List Nat)) (dv : Nat) :
    decodeFields ((rows.map encodeRowField).flatten ++ 24 :: encodeVarint dv) =
      some (rows, some dv) :=
  decodeFieldsF_encode rows dv _ (le_refl _)

theorem nthCell_setNth (l : List Nat) : ∀ (j j2 v : Nat),
    nthCell (setNth l j v) j2 = if j2 = j ∧ j < l.length then v else nthCell l j2 := by
  induction l with
  | nil => intro j j2 v; simp [setNth, nthCell]
  | cons x xs ih =>
    intro j j2 v
    cases j with
    | zero =>
      cases j2 with
      | zero => simp [setNth, nthCell]
      | succ m => simp [setNth, nthCell]
    | succ jj =>
      cases j2 with
      | zero => simp [setNth, nthCell]
      | succ m =>
        simp only [setNth, nthCell, List.length_cons]
        rw [ih jj m v]
        split_ifs <;> first | rfl | omega

theorem nthRow_updateRows (hashf : Nat → List Nat → Nat) (key : List Nat) (w v : Nat) :
    ∀ (rows : List (List Nat)) (i0 i : Nat),
      nthRow (updateRows hashf key w v i0 rows) i =
        if i < rows.length then bumpBy (nthRow rows i) (hashf (i0 + i) key % w) v
        else [] := by
  intro rows
  induction rows with
  | nil => intro i0 i; simp [updateRows, nthRow]
  | cons r rs ih =>
    intro i0 i
    cases i with
    | zero => simp [updateRows, nthRow]
    | succ m =>
      simp only [updateRows, nthRow, List.length_cons]
      rw [ih (i0 + 1) m]
      have harg : i0 + 1 + m = i0 + (m + 1) := by omega
      rw [harg]
      split_ifs <;> first | rfl | omega

theorem nthCell_zipWith_satAdd (a : List Nat) : ∀ (b : List Nat) (j : Nat),
    nthCell (List.zipWith satAdd32 a b) j =
      if j < a.length ∧ j < b.length then satAdd32 (nthCell a j) (nthCell b j) else 0 := by
  induction a with
  | nil => intro b j; simp [nthCell]
  | cons x xs ih =>
    intro b j
    cases b with
    | nil => simp [nthCell]
    | cons y ys =>
      cases j with
      | zero => simp [nthCell]
      | succ m =>
        simp only [List.zipWith_cons_cons, nthCell, List.length_cons]
        rw [ih ys m]
        split_ifs <;> first | rfl | omega

theorem nthRow_zipWith_satAddRow (A : List (List Nat)) : ∀ (B : List (List Nat)) (i : Nat),
    nthRow (List.zipWith satAddRow A B) i =
      if i < A.length ∧ i < B.length then satAddRow (nthRow A i) (nthRow B i) else [] := by
  induction A with
  | nil => intro B i; simp [nthRow]
  | cons a As ih =>
    intro B i
    cases B with
    | nil => simp [nthRow]
    | cons b Bs =>
      cases i with
      | zero => simp [nthRow]
      | succ m =>
        simp only [List.zipWith_cons_cons, nthRow, List.length_cons]
        rw [ih Bs m]
        split_ifs <;> first | rfl | omega

theorem pollAll_false_of_observed (killed : Nat → Bool) :
    ∀ (parts : List TopN) (i0 j : Nat), j < parts.length → killed (i0 + j) = true →
      pollAll killed i0 parts = false := by
  intro parts
  induction parts with
  | nil => intro i0 j hj _; simp at hj
  | cons t rest ih =>
    intro i0 j hj hk
    simp only [pollAll]
    by_cases h0 : killed i0 = true
    · simp [h0]
    · simp only [h0, Bool.false_eq_true, if_false]
      cases j with
      | zero => rw [Nat.add_zero] at hk; exact absurd hk h0
      | succ m =>
        have harg : i0 + 1 + m = i0 + (m + 1) := by omega
        exact ih (i0 + 1) m (by simp only [List.length_cons] at hj; omega)
          (by rw [harg]; exact hk)

/-- C1 (amended): for every frequency sketch with at least one row whose
total count equals the sum of each row's counters — the invariant that
insertion maintains, since every insert adds equally to each row and to the
count — encoding with EncodeCMSketchWithoutTopN and then decoding the bytes
with DecodeCMSketchAndTopN yields a sketch structurally Equal to the
original (same counters, total count and defaultValue), both when
heavy-hitter rows are supplied at decode time and when they are not.  The
restriction is forced by the wire format the test pins: the blob carries no
separate total-count field, so decoding recomputes the count from a row's
counters. -/
theorem encode_decode_equal (c : CMSketch) (rows : List TopNMeta)
    (hne : c.table ≠ []) (hsum : ∀ r ∈ c.table, r.sum = c.count) :
    decodedEqual c rows = true := by
  unfold decodedEqual DecodeCMSketchAndTopN
  have hemp : (EncodeCMSketchWithoutTopN c).isEmpty = false := by
    unfold EncodeCMSketchWithoutTopN
    cases hm : (c.table.map encodeRowField).flatten with
    | nil => rfl
    | cons a l => rfl
  rw [hemp]
  simp only [Bool.false_eq_true, if_false]
  rw [show EncodeCMSketchWithoutTopN c =
    (c.table.map encodeRowField).flatten ++ 24 :: encodeVarint c.defaultValue from rfl]
  rw [decodeFields_encode c.table c.defaultValue]
  have htne : c.table.isEmpty = false := by
    cases hm : c.table with
    | nil => exact absurd hm hne
    | cons a l => rfl
  simp only [htne, Bool.false_eq_true, if_false]
  cases hm : c.table with
  | nil => exact absurd hm hne
  | cons r t =>
    have hr : r.sum = c.count := hsum r (by rw [hm]; exact List.mem_cons_self _ _)
    simp only [Equal, fromRows, Option.getD_some, List.headD_cons, hr]
    simp [hm]

/-- C1 witness: a concrete sketch whose count matches its row sums
round-trips exactly, with and without accompanying heavy-hitter rows. -/
theorem encode_decode_equal_witness :
    decodedEqual wRound [] = true ∧ decodedEqual wRound [⟨[7], 4⟩] = true :=
  ⟨encode_decode_equal wRound [] (by decide) (by decide),
   encode_decode_equal wRound [⟨[7], 4⟩] (by decide) (by decide)⟩

/-- C1 counterexample: the claim as stated, quantified over every frequency
sketch, is false.  A sketch whose stored total count (7) disagrees with its
counters (one row summing to 5) decodes to a sketch with recomputed count 5
and therefore fails the structural-equality round-trip. -/
theorem encode_decode_equal_counterexample : decodedEqual cexSketch [] = false := by decide

/-- C2: MergePartTopN2GlobalTopN, given 10 identical per-partition
heavy-hitter lists each holding three keys with counts 2, 2 and 3, and a
global capacity of 2: with no histograms supplied it returns a 2-entry
global list with total count 50 and exactly one left-over entry; with
per-partition histograms estimating the third key's count (4 per partition)
in the partitions where it was not a local heavy hitter, the global list's
total count is 55 with the same single left-over entry. -/
theorem merge_global_topn_scenarios :
    mergeStats (MergePartTopN2GlobalTopN () 1 topNsA 2 none false (fun _ => false)) =
      some (2, 50, 1) ∧
    mergeStats (MergePartTopN2GlobalTopN () 1 topNsB 2 histsB false (fun _ => false)) =
      some (2, 55, 1) := by
  constructor <;> decide

/-- C3: the point-query estimator returns the key's exact stored count
whenever the heavy-hitter list is present and contains the key; otherwise
it returns the sketch's bias-corrected estimate — the minimum counter
across the rows minus the collision-correction term count / width, the
truncated subtraction never going below zero — with defaultValue
substituted when that estimate rounds to zero, so a key is reported as zero
only when defaultValue itself is zero. -/
theorem queryValue_spec (hashf : Nat → List Nat → Nat) (c : CMSketch) (t : Option TopN)
    (key : List Nat) :
    (∀ v, QueryTopN t key = some v → queryValue hashf c t key = v) ∧
    (QueryTopN t key = none →
      queryValue hashf c t key =
        if minList (rowCells hashf key c.width 0 c.table) - c.count / c.width = 0
        then c.defaultValue
        else minList (rowCells hashf key c.width 0 c.table) - c.count / c.width) ∧
    (QueryTopN t key = none → queryValue hashf c t key = 0 → c.defaultValue = 0) := by
  refine ⟨?_, ?_, ?_⟩
  · intro v hv
    unfold queryValue
    rw [hv]
  · intro hnone
    unfold queryValue sketchEstimate
    rw [hnone]
  · intro hnone h0
    unfold queryValue at h0
    rw [hnone] at h0
    by_cases he : sketchEstimate hashf c key = 0
    · rw [if_pos he] at h0
      exact h0
    · rw [if_neg he] at h0
      exact absurd h0 he

/-- C3 witness: with the key present in the list the exact count 7 is
returned; with no list the bias-corrected sketch estimate (with the
defaultValue fallback) is returned. -/
theorem queryValue_spec_witness :
    queryValue wHash wQSketch (some wQTopN) [1, 2] = 7 ∧
    queryValue wHash wQSketch none [9] =
      (if minList (rowCells wHash [9] wQSketch.width 0 wQSketch.table) -
          wQSketch.count / wQSketch.width = 0
       then wQSketch.defaultValue
       else minList (rowCells wHash [9] wQSketch.width 0 wQSketch.table) -
          wQSketch.count / wQSketch.width) :=
  ⟨(queryValue_spec wHash wQSketch (some wQTopN) [1, 2]).1 7 (by decide),
   (queryValue_spec wHash wQSketch none [9]).2.1 (by decide)⟩

/-- C4: DecodeCMSketchAndTopN applied to an empty byte sequence succeeds for
any accompanying heavy-hitter rows, including none: it returns an
empty/absent sketch and list with no error rather than a decode failure. -/
theorem decode_empty_ok (rows : List TopNMeta) :
    DecodeCMSketchAndTopN [] rows = .ok (none, none) := rfl

/-- C6: both the pairwise merge and the incremental merge fail with the
dimension-mismatch error exactly when the two sketches' depth or width
differ, and when the dimensions are identical the merge succeeds and the
result keeps the same depth and width — never truncating or padding. -/
theorem merge_dimension_check (cellRule dvRule : Nat → Nat → Nat → Nat) (version : Nat)
    (c o : CMSketch) :
    ((okPart (MergeCMSketch c o)).map (fun m => (m.depth, m.width)) =
      if c.depth = o.depth ∧ c.width = o.width then some (c.depth, c.width) else none) ∧
    (isDimErr (MergeCMSketch c o) = !(c.depth == o.depth && c.width == o.width)) ∧
    ((okPart (MergeCMSketch4IncrementalAnalyze cellRule dvRule version c o)).map
        (fun m => (m.depth, m.width)) =
      if c.depth = o.depth ∧ c.width = o.width then some (c.depth, c.width) else none) ∧
    (isDimErr (MergeCMSketch4IncrementalAnalyze cellRule dvRule version c o) =
      !(c.depth == o.depth && c.width == o.width)) := by
  unfold MergeCMSketch MergeCMSketch4IncrementalAnalyze
  by_cases h : c.depth = o.depth ∧ c.width = o.width
  · simp [h, h.1, h.2, okPart, isDimErr]
  · have hb : (c.depth == o.depth && c.width == o.width) = false := by
      rcases Decidable.not_and_iff_or_not.mp h with h1 | h1 <;> simp [h1]
    simp [h, hb, okPart, isDimErr]

/-- C7: if the shared cancellation token is observed set at one of the
reconciler's polls (one poll per partition), MergePartTopN2GlobalTopN
aborts with the distinct cancelled condition; no partial global list is
returned, since the error carries no list at all. -/
theorem merge_global_topn_cancelled (loc : Unit) (version : Nat) (topNs : List TopN)
    (n : Nat) (hists : Option (List Hist)) (isIdx : Bool) (killed : Nat → Bool)
    (h : ∃ j, j < topNs.length ∧ killed j = true) :
    MergePartTopN2GlobalTopN loc version topNs n hists isIdx killed =
      .error .cancelled := by
  obtain ⟨j, hj, hk⟩ := h
  unfold MergePartTopN2GlobalTopN
  rw [pollAll_false_of_observed killed topNs 0 j hj (by simpa using hk)]
  rfl

/-- C7 witness: a token that reads set at the first poll cancels a concrete
ten-partition reconciliation. -/
theorem merge_global_topn_cancelled_witness :
    MergePartTopN2GlobalTopN () 1 topNsA 2 none false (fun _ => true) =
      .error .cancelled :=
  merge_global_topn_cancelled () 1 topNsA 2 none false (fun _ => true)
    ⟨0, by decide, rfl⟩

/-- C8: for every sample and requested heavy-hitter capacity n, the
heavy-hitter list returned by the builder NewCMSketchAndTopN contains at
most n entries and is ordered descending by count with ties broken by
ascending lexicographic key order (an absent list counts as empty). -/
theorem builder_topn_bounded_sorted (hashf : Nat → List Nat → Nat) (d w : Nat)
    (sample : List (List Nat)) (n total : Nat) :
    (topNEntries (NewCMSketchAndTopN hashf d w sample n total).2.1).length ≤ n ∧
    List.Sorted metaLE (topNEntries (NewCMSketchAndTopN hashf d w sample n total).2.1) := by
  simp only [NewCMSketchAndTopN]
  split
  · exact ⟨Nat.zero_le n, List.sorted_nil⟩
  · constructor
    · simp only [topNEntries, List.length_take]
      exact inf_le_left
    · simp only [topNEntries]
      exact List.Pairwise.sublist (List.take_sublist _ _)
        (List.sorted_insertionSort metaLE _)

/-- C9: sketch counters and the total count use saturating fixed-width
arithmetic and never wrap.  For every key, InsertBytes increments the
hashed counter of each row (leaving other columns unchanged) and the total
count with saturation at the maximum representable value; a counter already
at the maximum stays there; counters never exceed the maximum and are
monotonically non-decreasing; and the pairwise merge adds counters and
totals with the same saturation, likewise monotonically. -/
theorem insert_merge_saturating (hashf : Nat → List Nat → Nat) (c o : CMSketch)
    (key : List Nat) (i j : Nat)
    (hi : i < c.table.length)
    (hlen : (nthRow c.table i).length = c.width)
    (hj : j < c.width)
    (hio : i < o.table.length)
    (holen : (nthRow o.table i).length = c.width)
    (hcell : cell c i j ≤ maxU32) :
    (cell (InsertBytes hashf c key) i j =
      if j = hashf i key % c.width then min (cell c i j + 1) maxU32 else cell c i j) ∧
    (InsertBytes hashf c key).count = min (c.count + 1) maxU64 ∧
    cell c i j ≤ cell (InsertBytes hashf c key) i j ∧
    (cell c i j = maxU32 → cell (InsertBytes hashf c key) i j = maxU32) ∧
    cell (InsertBytes hashf c key) i j ≤ maxU32 ∧
    (∀ m, MergeCMSketch c o = .ok m →
      cell m i j = min (cell c i j + cell o i j) maxU32 ∧
      m.count = min (c.count + o.count) maxU64 ∧
      cell c i j ≤ cell m i j) := by
  have hwpos : 0 < c.width := by omega
  have hcol : hashf i key % c.width < c.width := Nat.mod_lt _ hwpos
  have hmain : cell (InsertBytes hashf c key) i j =
      if j = hashf i key % c.width then min (cell c i j + 1) maxU32 else cell c i j := by
    show nthCell (nthRow (updateRows hashf key c.width 1 0 c.table) i) j = _
    rw [nthRow_updateRows hashf key c.width 1 c.table 0 i, if_pos hi]
    unfold bumpBy
    rw [Nat.zero_add]
    rw [nthCell_setNth]
    rw [hlen]
    by_cases hcase : j = hashf i key % c.width
    · rw [if_pos ⟨hcase, hcol⟩, if_pos hcase]
      rw [hcase]
      rfl
    · rw [if_neg (by tauto), if_neg hcase]
      rfl
  refine ⟨hmain, rfl, ?_, ?_, ?_, ?_⟩
  · rw [hmain]
    by_cases hcase : j = hashf i key % c.width
    · rw [if_pos hcase]
      exact le_min (Nat.le_succ _) hcell
    · rw [if_neg hcase]
  · intro hmax
    rw [hmain]
    by_cases hcase : j = hashf i key % c.width
    · rw [if_pos hcase, hmax]
      exact min_eq_right (Nat.le_succ _)
    · rw [if_neg hcase]
      exact hmax
  · rw [hmain]
    by_cases hcase : j = hashf i key % c.width
    · rw [if_pos hcase]
      exact min_le_right _ _
    · rw [if_neg hcase]
      exact hcell
  · intro m hm
    unfold MergeCMSketch at hm
    by_cases hd : c.depth = o.depth ∧ c.width = o.width
    · rw [if_pos hd] at hm
      injection hm with hm2
      subst hm2
      refine ⟨?_, rfl, ?_⟩
      · show nthCell (nthRow (List.zipWith satAddRow c.table o.table) i) j = _
        rw [nthRow_zipWith_satAddRow c.table o.table i, if_pos ⟨hi, hio⟩]
        unfold satAddRow
        rw [nthCell_zipWith_satAdd, if_pos ⟨by rw [hlen]; exact hj, by rw [holen]; exact hj⟩]
        rfl
      · show cell c i j ≤ nthCell (nthRow (List.zipWith satAddRow c.table o.table) i) j
        rw [nthRow_zipWith_satAddRow c.table o.table i, if_pos ⟨hi, hio⟩]
        unfold satAddRow
        rw [nthCell_zipWith_satAdd, if_pos ⟨by rw [hlen]; exact hj, by rw [holen]; exact hj⟩]
        exact le_min (Nat.le_add_right _ _) hcell
    · rw [if_neg hd] at hm
      exact absurd hm (by simp)

/-- C9 witness: on a concrete one-row sketch whose first counter is at the
32-bit maximum, inserting a key saturates that counter and increments the
count, and merging with a matching sketch saturates cell-wise. -/
theorem insert_merge_saturating_witness :
    (cell (InsertBytes wHash wSatC [0]) 0 0 =
      if (0 : Nat) = wHash 0 [0] % wSatC.width then min (cell wSatC 0 0 + 1) maxU32
      else cell wSatC 0 0) ∧
    (InsertBytes wHash wSatC [0]).count = min (wSatC.count + 1) maxU64 ∧
    (cell wSatM 0 0 = min (cell wSatC 0 0 + cell wSatO 0 0) maxU32 ∧
      wSatM.count = min (wSatC.count + wSatO.count) maxU64 ∧
      cell wSatC 0 0 ≤ cell wSatM 0 0) := by
  have H := insert_merge_saturating wHash wSatC wSatO [0] 0 0 (by decide) (by decide)
    (by decide) (by decide) (by decide) (by decide)
  exact ⟨H.1, H.2.1, H.2.2.2.2.2 wSatM (by rfl)⟩

/-- C10: the encoded blob is a fixed function of the sketch contents alone.
For the depth-5, width-2048 sketch whose counters are all at the 32-bit
maximum and whose total count is 2048 times that maximum,
EncodeCMSketchWithoutTopN produces exactly 61457 bytes; and the sketch
component of DecodeCMSketchAndTopN does not depend on which heavy-hitter
rows accompany the bytes at decode time. -/
theorem encode_length_and_rows_independence :
    (EncodeCMSketchWithoutTopN s10).length = 61457 ∧
    ∀ (bytes : List Nat) (r1 r2 : List TopNMeta),
      sketchPart (DecodeCMSketchAndTopN bytes r1) =
        sketchPart (DecodeCMSketchAndTopN bytes r2) := by
  constructor
  · have hrow : (encodeRowPayload (List.replicate 2048 maxU32)).length = 12288 := by
      unfold encodeRowPayload
      rw [List.map_replicate, List.length_flatten, List.map_replicate]
      have h6 : (encodeCounter maxU32).length = 6 := by decide
      rw [h6]
      rw [List.sum_replicate, smul_eq_mul]
    have hfield : (encodeRowField (List.replicate 2048 maxU32)).length = 12291 := by
      unfold encodeRowField
      simp only [List.length_cons, List.length_append]
      rw [hrow]
      have h2 : (encodeVarint 12288).length = 2 := by decide
      rw [h2]
    show ((s10.table.map encodeRowField).flatten ++ 24 :: encodeVarint s10.defaultValue).length
        = 61457
    have htab : s10.table = List.replicate 5 (List.replicate 2048 maxU32) := rfl
    have hdv : s10.defaultValue = 0 := rfl
    rw [htab, hdv]
    rw [List.map_replicate, List.length_append, List.length_flatten, List.map_replicate,
      hfield, List.length_cons]
    have h1 : (encodeVarint 0).length = 1 := by decide
    rw [h1]
    rw [List.sum_replicate, smul_eq_mul]
  · intro bytes r1 r2
    unfold DecodeCMSketchAndTopN
    by_cases h : bytes.isEmpty = true
    · simp [h]
    · simp only [h, Bool.false_eq_true, if_false]
      cases hf : decodeFields bytes with
      | none => rfl
      | some p =>
        obtain ⟨rs, dv⟩ := p
        by_cases hr : rs.isEmpty = true <;> simp [hr, sketchPart]

end CMS
